import Mathlib

/-!
Verification development for the "Upcoming CRC surgery patients" pipeline
(src/app.py).  Python strings are modelled at the character-list level
(List Char).  The case, whitespace, digit and word-character tests of
Python are modelled by their ASCII behaviour, which covers the fixed
vocabulary (surgeon surnames, month names, numeric shapes) that the
pipeline works with.
-/

/-- ASCII whitespace, as recognised by Python str.split / str.strip and
by the regex class \s. -/
def isWsC (c : Char) : Bool :=
  decide (c.toNat = 32 ∨ c.toNat = 9 ∨ c.toNat = 10 ∨ c.toNat = 13 ∨ c.toNat = 11 ∨ c.toNat = 12)

/-- ASCII digit (regex class \d, Python str.isdigit on ASCII). -/
def isDigitC (c : Char) : Bool :=
  decide (48 ≤ c.toNat ∧ c.toNat ≤ 57)

/-- ASCII letter (regex class [A-Za-z]). -/
def isAlphaC (c : Char) : Bool :=
  decide ((65 ≤ c.toNat ∧ c.toNat ≤ 90) ∨ (97 ≤ c.toNat ∧ c.toNat ≤ 122))

/-- ASCII word character (regex class \w). -/
def isWordC (c : Char) : Bool :=
  isAlphaC c || isDigitC c || decide (c.toNat = 95)

/-- ASCII lower-casing of one character (Python str.lower). -/
def lowerC (c : Char) : Char :=
  if 65 ≤ c.toNat ∧ c.toNat ≤ 90 then Char.ofNat (c.toNat + 32) else c

/-- ASCII upper-casing of one character (Python str.upper). -/
def upperC (c : Char) : Char :=
  if 97 ≤ c.toNat ∧ c.toNat ≤ 122 then Char.ofNat (c.toNat - 32) else c

/-- Python str.lower on a character list. -/
def lowerS (l : List Char) : List Char := l.map lowerC

/-- The character list of a string literal. -/
def chars (s : String) : List Char := s.data

/-- Python str.strip on a character list: remove leading and trailing
whitespace. -/
def stripS (l : List Char) : List Char :=
  ((l.dropWhile isWsC).reverse.dropWhile isWsC).reverse

/-- Python str.replace(".", ""): remove every period. -/
def removeDots (l : List Char) : List Char :=
  l.filter (fun c => !(c == '.'))

/-- Substring containment test (the Python operator in on strings):
n occurs contiguously inside the second argument. -/
def isSubstr (n : List Char) : List Char → Bool
  | [] => n.isEmpty
  | c :: t => n.isPrefixOf (c :: t) || isSubstr n t

/-- Python str.title on ASCII text: a letter is upper-cased exactly when
the previous character is not a letter, and lower-cased otherwise.  The
Boolean argument records whether the previous character was a letter. -/
def pyTitleGo : Bool → List Char → List Char
  | _, [] => []
  | prevAlpha, c :: cs =>
    if isAlphaC c then (if prevAlpha then lowerC c else upperC c) :: pyTitleGo true cs
    else c :: pyTitleGo false cs

/-- Python str.title. -/
def pyTitle (s : String) : String := ⟨pyTitleGo false s.data⟩

/-- The normalisation performed by the Surgeon Name Unifier
(src/app.py line 98): name.lower().replace(".", "").strip(). -/
def pyNormalize (name : String) : List Char :=
  stripS (removeDots (lowerS name.data))

/-- src/app.py, unify_surgeon_name (lines 91-112).  The falsy test
"if not name" is the empty-string test for string input; the synonym
dictionary is traversed in insertion order (pang, ghitulescu, garfinkle,
faria, morin). -/
def unify_surgeon_name (name : String) : String :=
  if name.data.isEmpty then name
  else if pyNormalize name == chars "dr v" || pyNormalize name == chars "drv" ||
          pyNormalize name == chars "v" || pyNormalize name == chars "cav" ||
          isSubstr (chars "dr v") (pyNormalize name) ||
          isSubstr (chars "vasilevsky") (pyNormalize name) then "Dr. Vasilevsky"
  else if isSubstr (chars "pang") (pyNormalize name) then "Dr. Pang"
  else if isSubstr (chars "ghitulescu") (pyNormalize name) then "Dr. Ghitulescu"
  else if isSubstr (chars "garfinkle") (pyNormalize name) then "Dr. Garfinkle"
  else if isSubstr (chars "faria") (pyNormalize name) then "Dr. Faria"
  else if isSubstr (chars "morin") (pyNormalize name) then "Dr. Morin"
  else pyTitle name

theorem isSubstr_iff {n h : List Char} : isSubstr n h = true ↔ n <:+: h := by
  induction h with
  | nil => simp [isSubstr, List.isEmpty_iff, List.infix_nil]
  | cons c t ih =>
    simp [isSubstr, Bool.or_eq_true, List.isPrefixOf_iff_prefix, ih, List.infix_cons_iff]

theorem infix_filter {p : Char → Bool} {n h : List Char} (hn : n.filter p = n)
    (hi : n <:+: h) : n <:+: h.filter p := by
  obtain ⟨s, t, rfl⟩ := hi
  exact ⟨s.filter p, t.filter p, by simp [List.filter_append, hn]⟩

theorem filter_infix_of_infix {p : Char → Bool} {m h : List Char}
    (hi : m <:+: h) : m.filter p <:+: h.filter p := by
  obtain ⟨s, t, rfl⟩ := hi
  exact ⟨s.filter p, t.filter p, by simp [List.filter_append]⟩

theorem infix_dropWhile {p : Char → Bool} {n : List Char} (c : Char) (nt : List Char)
    (hcons : n = c :: nt) (hc : p c = false) :
    ∀ {h : List Char}, n <:+: h → n <:+: h.dropWhile p := by
  intro h hi
  obtain ⟨s, t, rfl⟩ := hi
  induction s with
  | nil =>
    subst hcons
    simpa [List.dropWhile_cons, hc] using (List.infix_append [] (c :: nt) t)
  | cons a s ih =>
    by_cases ha : p a
    · simpa [List.dropWhile_cons, ha] using ih
    · show n <:+: List.dropWhile p (a :: (s ++ n ++ t))
      rw [List.dropWhile_cons, if_neg (by simpa using ha)]
      exact ⟨a :: s, t, by simp⟩

theorem infix_stripS {n h : List Char} (c1 : Char) (t1 : List Char)
    (h1 : n = c1 :: t1) (hw1 : isWsC c1 = false)
    (c2 : Char) (t2 : List Char) (h2 : n.reverse = c2 :: t2) (hw2 : isWsC c2 = false)
    (hi : n <:+: h) : n <:+: stripS h := by
  have step1 : n <:+: h.dropWhile isWsC := infix_dropWhile c1 t1 h1 hw1 hi
  have step2 : n.reverse <:+: (h.dropWhile isWsC).reverse :=
    List.reverse_infix.mpr step1
  have step3 : n.reverse <:+: ((h.dropWhile isWsC).reverse).dropWhile isWsC :=
    infix_dropWhile c2 t2 h2 hw2 step2
  have step4 := List.reverse_infix.mpr step3
  simpa [stripS] using step4

theorem unify_vasilevsky_of_cond (name : String)
    (h : isSubstr (chars "dr v") (pyNormalize name) = true ∨
         isSubstr (chars "vasilevsky") (pyNormalize name) = true ∨
         pyNormalize name ∈ [chars "dr v", chars "drv", chars "v", chars "cav"]) :
    unify_surgeon_name name = "Dr. Vasilevsky" := by
  have hne : name.data.isEmpty = false := by
    cases hd : name.data with
    | nil =>
      exfalso
      have hnorm : pyNormalize name = [] := by
        simp [pyNormalize, hd, lowerS, removeDots, stripS]
      rw [hnorm] at h
      rcases h with h | h | h
      · exact absurd h (by decide)
      · exact absurd h (by decide)
      · exact absurd h (by decide)
    | cons a l => simp [hd]
  have hcond : (pyNormalize name == chars "dr v" || pyNormalize name == chars "drv" ||
      pyNormalize name == chars "v" || pyNormalize name == chars "cav" ||
      isSubstr (chars "dr v") (pyNormalize name) ||
      isSubstr (chars "vasilevsky") (pyNormalize name)) = true := by
    rcases h with h | h | h
    · simp [h]
    · simp [h]
    · simp only [List.mem_cons, List.not_mem_nil, or_false] at h
      rcases h with h | h | h | h <;> simp [h]
  unfold unify_surgeon_name
  simp [hne, hcond]

/-- C1 (amended): for every input string that contains "vasilevsky",
"dr v" or "Dr. V." in any letter case, and for every input whose
normalised form is exactly one of the closed aliases "dr v", "drv", "v",
"cav", the Unifier returns the fixed canonical label "Dr. Vasilevsky";
this check takes priority over the other-surgeon substring checks and
the title-case fallback.  (Containment of "CAV" in a longer string does
not trigger it — see the counterexample theorem.) -/
theorem C1_unify_vasilevsky (name : String)
    (h : isSubstr (chars "vasilevsky") (lowerS name.data) = true ∨
         isSubstr (chars "dr v") (lowerS name.data) = true ∨
         isSubstr (chars "dr. v.") (lowerS name.data) = true ∨
         pyNormalize name ∈ [chars "dr v", chars "drv", chars "v", chars "cav"]) :
    unify_surgeon_name name = "Dr. Vasilevsky" := by
  apply unify_vasilevsky_of_cond
  rcases h with h | h | h | h
  · refine Or.inr (Or.inl ?_)
    rw [isSubstr_iff] at h ⊢
    have h2 : chars "vasilevsky" <:+: removeDots (lowerS name.data) :=
      infix_filter (by decide) h
    exact infix_stripS 'v' (chars "asilevsky") (by decide) (by decide)
      'y' (chars "ksvelisav") (by decide) (by decide) h2
  · refine Or.inl ?_
    rw [isSubstr_iff] at h ⊢
    have h2 : chars "dr v" <:+: removeDots (lowerS name.data) :=
      infix_filter (by decide) h
    exact infix_stripS 'd' (chars "r v") (by decide) (by decide)
      'v' (chars " rd") (by decide) (by decide) h2
  · refine Or.inl ?_
    rw [isSubstr_iff] at h ⊢
    have h2 : chars "dr v" <:+: removeDots (lowerS name.data) := by
      have h3 := filter_infix_of_infix (p := fun c => !(c == '.')) h
      simpa [removeDots] using h3
    exact infix_stripS 'd' (chars "r v") (by decide) (by decide)
      'v' (chars " rd") (by decide) (by decide) h2
  · exact Or.inr (Or.inr h)

/-- C1 counterexample: the input "Dr CAV" contains the substring "CAV",
yet the Unifier does not return "Dr. Vasilevsky": it falls through to
the title-case fallback and returns "Dr Cav".  The code checks the alias
"cav" only by equality of the whole normalised form, not by containment. -/
theorem C1_counterexample :
    isSubstr (chars "cav") (lowerS (chars "Dr CAV")) = true ∧
    unify_surgeon_name "Dr CAV" = "Dr Cav" ∧
    unify_surgeon_name "Dr CAV" ≠ "Dr. Vasilevsky" :=
  ⟨by decide, by decide, by decide⟩

/-- C1 witness: "Morin Dr. V." contains "Dr. V." (case-insensitively)
and the Unifier returns "Dr. Vasilevsky" even though the string also
contains the surname "morin" — the Vasilevsky check has priority. -/
theorem C1_witness :
    isSubstr (chars "dr. v.") (lowerS ("Morin Dr. V.").data) = true ∧
    isSubstr (chars "morin") (pyNormalize "Morin Dr. V.") = true ∧
    unify_surgeon_name "Morin Dr. V." = "Dr. Vasilevsky" :=
  ⟨by decide, by decide,
   C1_unify_vasilevsky "Morin Dr. V." (Or.inr (Or.inr (Or.inl (by decide))))⟩

/-- C8: every input string whose form after lower-casing, removing
periods and stripping whitespace is exactly "v", "drv", "dr v" or "cav"
— including the bare single letter "V" and "v." — is mapped by the
Unifier to "Dr. Vasilevsky". -/
theorem C8_alias_equality (name : String)
    (h : pyNormalize name ∈ [chars "v", chars "drv", chars "dr v", chars "cav"]) :
    unify_surgeon_name name = "Dr. Vasilevsky" := by
  apply unify_vasilevsky_of_cond
  refine Or.inr (Or.inr ?_)
  simp only [List.mem_cons, List.not_mem_nil, or_false] at h ⊢
  tauto

/-- C8 witness: the bare letter "V" and the input "v." both normalise
into the alias set and are mapped to "Dr. Vasilevsky". -/
theorem C8_witness :
    pyNormalize "V" ∈ [chars "v", chars "drv", chars "dr v", chars "cav"] ∧
    unify_surgeon_name "V" = "Dr. Vasilevsky" ∧
    unify_surgeon_name "v." = "Dr. Vasilevsky" :=
  ⟨by decide, C8_alias_equality "V" (by decide), C8_alias_equality "v." (by decide)⟩

/-- Worker for Python str.split() with no argument: collect maximal
non-whitespace runs.  The accumulator holds the current run reversed. -/
def splitRunsAux (cur : List Char) : List Char → List (List Char)
  | [] => if cur.isEmpty then [] else [cur.reverse]
  | c :: cs =>
    if isWsC c then
      (if cur.isEmpty then splitRunsAux [] cs else cur.reverse :: splitRunsAux [] cs)
    else splitRunsAux (c :: cur) cs

/-- Python str.split() on a character list: the list of maximal
non-whitespace runs, with no empty tokens. -/
def splitRuns (l : List Char) : List (List Char) := splitRunsAux [] l

/-- The deduplication loop of normalize_date_string (src/app.py lines
64-71): a token is kept exactly when its lower-cased form is not among
the lower-cased forms of the tokens kept so far. -/
def normGo (seen : List (List Char)) : List (List Char) → List (List Char)
  | [] => []
  | t :: ts =>
    if List.elem (lowerS t) (seen.map lowerS) then normGo seen ts
    else t :: normGo (seen ++ [t]) ts

/-- Python " ".join on token lists. -/
def joinChars : List (List Char) → List Char
  | [] => []
  | [t] => t
  | t :: ts => t ++ ' ' :: joinChars ts

/-- src/app.py, normalize_date_string (lines 60-72), character level. -/
def normChars (l : List Char) : List Char := joinChars (normGo [] (splitRuns l))

/-- src/app.py, normalize_date_string (lines 60-72). -/
def normalize_date_string (s : String) : String := ⟨normChars s.data⟩

/-- A parsed calendar date (the value strptime produces, restricted to
the fields the pipeline uses). -/
structure SDate where
  year : Nat
  month : Nat
  day : Nat
deriving DecidableEq

/-- The whitespace element of the compiled strptime regex (a literal
space in the format becomes \s+): one mandatory whitespace character,
then greedily all following whitespace. -/
def wsPlus : List Char → Option (List Char)
  | [] => none
  | c :: r => if isWsC c then some (r.dropWhile isWsC) else none

/-- Consume exactly k digits (the regex \d{k}); returns the consumed
digits and the rest. -/
def digitsTake (k : Nat) (l : List Char) : Option (List Char × List Char) :=
  if (l.take k).length == k && (l.take k).all isDigitC then some (l.take k, l.drop k)
  else none

/-- Numeric value of a digit run. -/
def digitsVal (l : List Char) : Nat := l.foldl (fun a c => a * 10 + (c.toNat - 48)) 0

/-- The day field of the strptime regex, (3[01]|[12]\d|0[1-9]|[1-9]):
all candidate (value, rest) pairs, in the backtracking order of the
alternation. -/
def dayCands (l : List Char) : List (Nat × List Char) :=
  (match l with
   | a :: b :: r =>
     (if a == '3' && (b == '0' || b == '1') then [(30 + (b.toNat - 48), r)] else []) ++
     (if (a == '1' || a == '2') && isDigitC b then
       [((a.toNat - 48) * 10 + (b.toNat - 48), r)] else []) ++
     (if a == '0' && decide (49 ≤ b.toNat ∧ b.toNat ≤ 57) then [(b.toNat - 48, r)] else [])
   | _ => []) ++
  (match l with
   | a :: r => if decide (49 ≤ a.toNat ∧ a.toNat ≤ 57) then [(a.toNat - 48, r)] else []
   | _ => [])

/-- Try the day candidates in order; each one is followed by \s+ and
four digits (%Y).  The first candidate whose continuation matches wins
(regex backtracking). -/
def tryDays : List (Nat × List Char) → Option (Nat × Nat × List Char)
  | [] => none
  | (d, r) :: cs =>
    match (wsPlus r).bind (digitsTake 4) with
    | some (yc, r2) => some (d, digitsVal yc, r2)
    | none => tryDays cs

/-- The part of the strptime pattern after the month name:
\s+ day \s+ \d\d\d\d. -/
def tryAfterMonth (l : List Char) : Option (Nat × Nat × List Char) :=
  match wsPlus l with
  | none => none
  | some l1 => tryDays (dayCands l1)

/-- The month alternation of the compiled strptime regex.  Names are
tried in alternation order; matching is case-insensitive (the pattern is
compiled with IGNORECASE and the stored names are lower case); when a
name matches but the rest of the pattern fails, the next name is tried
(regex backtracking). -/
def tryMonths : List (Nat × List Char) → List Char → Option (Nat × Nat × Nat × List Char)
  | [], _ => none
  | (m, nm) :: rest, l =>
    if lowerS (l.take nm.length) == nm then
      match tryAfterMonth (l.drop nm.length) with
      | some (d, y, r) => some (m, d, y, r)
      | none => tryMonths rest l
    else tryMonths rest l

/-- Abbreviated month names (%b) in the alternation order of the
compiled regex (all of length three, so the stable length-descending
sort keeps calendar order). -/
def abbrNames : List (Nat × List Char) :=
  [(1, chars "jan"), (2, chars "feb"), (3, chars "mar"), (4, chars "apr"),
   (5, chars "may"), (6, chars "jun"), (7, chars "jul"), (8, chars "aug"),
   (9, chars "sep"), (10, chars "oct"), (11, chars "nov"), (12, chars "dec")]

/-- Full month names (%B), sorted stably by length descending, as the
strptime regex builder orders its alternations. -/
def fullNames : List (Nat × List Char) :=
  [(9, chars "september"), (2, chars "february"), (11, chars "november"),
   (12, chars "december"), (1, chars "january"), (10, chars "october"),
   (8, chars "august"), (3, chars "march"), (4, chars "april"),
   (6, chars "june"), (7, chars "july"), (5, chars "may")]

/-- Days in a month under the Gregorian leap rule (datetime.date). -/
def daysInMonth (y m : Nat) : Nat :=
  if m = 2 then (if (y % 4 = 0 ∧ y % 100 ≠ 0) ∨ y % 400 = 0 then 29 else 28)
  else if m = 4 ∨ m = 6 ∨ m = 9 ∨ m = 11 then 30 else 31

/-- Validity of a calendar date as enforced by datetime.date, which
strptime constructs after the regex match; an invalid combination raises
ValueError, caught by parse_surgery_date. -/
def validDate (y m d : Nat) : Bool :=
  decide (1 ≤ y ∧ y ≤ 9999 ∧ 1 ≤ m ∧ m ≤ 12 ∧ 1 ≤ d ∧ d ≤ daysInMonth y m)

/-- datetime.datetime.strptime for a format "month-name day year",
modelled over a month-name list — the two formats "%b %d %Y" and
"%B %d %Y" of parse_surgery_date.  strptime fails (none) when the regex
does not match, when unconverted data remains after the match, or when
the matched numbers are not a valid calendar date. -/
def strptimeFmt (names : List (Nat × List Char)) (l : List Char) : Option SDate :=
  match tryMonths names l with
  | some (m, d, y, rest) =>
    if rest.isEmpty && validDate y m d then some ⟨y, m, d⟩ else none
  | none => none

/-- src/app.py, parse_surgery_date (lines 74-88): strip, return none on
empty input, normalise, append the fixed reference year 2025, then try
the abbreviated-month format and then the full-month format. -/
def parse_surgery_date (s : String) : Option SDate :=
  if (stripS s.data).isEmpty then none
  else
    match strptimeFmt abbrNames (normChars (stripS s.data) ++ ' ' :: chars "2025") with
    | some d => some d
    | none => strptimeFmt fullNames (normChars (stripS s.data) ++ ' ' :: chars "2025")

example : normalize_date_string "Jan jan 21" = "Jan 21" := by decide
example : parse_surgery_date "Jan jan 21" = some ⟨2025, 1, 21⟩ := by decide
example : parse_surgery_date "March 25" = some ⟨2025, 3, 25⟩ := by decide
example : parse_surgery_date "Jan 21 2025" = none := by decide
example : parse_surgery_date "Feb 31 2" = none := by decide
example : parse_surgery_date "Feb 29" = none := by decide
example : parse_surgery_date "" = none := by decide

theorem splitRunsAux_run (t : List Char) (hw : ∀ c ∈ t, isWsC c = false) :
    ∀ (cur l : List Char), splitRunsAux cur (t ++ l) = splitRunsAux (t.reverse ++ cur) l := by
  induction t with
  | nil => intro cur l; simp
  | cons c t ih =>
    intro cur l
    have hc : isWsC c = false := hw c (by simp)
    have ht : ∀ x ∈ t, isWsC x = false := fun x hx => hw x (by simp [hx])
    show splitRunsAux cur (c :: (t ++ l)) = _
    rw [splitRunsAux, if_neg (by simp [hc])]
    rw [ih ht (c :: cur) l]
    congr 1
    simp

theorem splitRuns_cons_run (t R : List Char) (ht : t ≠ [])
    (hw : ∀ c ∈ t, isWsC c = false) :
    splitRuns (t ++ ' ' :: R) = t :: splitRuns R := by
  unfold splitRuns
  rw [splitRunsAux_run t hw [] (' ' :: R)]
  rw [splitRunsAux, if_pos (by decide)]
  rw [if_neg (by simp [List.isEmpty_iff, ht])]
  simp

theorem splitRuns_single (t : List Char) (ht : t ≠ [])
    (hw : ∀ c ∈ t, isWsC c = false) : splitRuns t = [t] := by
  unfold splitRuns
  have := splitRunsAux_run t hw [] []
  rw [List.append_nil] at this
  rw [this, splitRunsAux]
  rw [if_neg (by simp [List.isEmpty_iff, ht])]
  simp

theorem splitRunsAux_ws (m : List Char) (hm : ∀ c ∈ m, isWsC c = true) :
    ∀ cur, splitRunsAux cur m = if cur.isEmpty then [] else [cur.reverse] := by
  induction m with
  | nil => intro cur; rfl
  | cons c m ih =>
    intro cur
    have hc : isWsC c = true := hm c (by simp)
    have hm' : ∀ x ∈ m, isWsC x = true := fun x hx => hm x (by simp [hx])
    rw [splitRunsAux, if_pos hc]
    by_cases hcur : cur.isEmpty
    · rw [if_pos hcur, if_pos hcur, ih hm']; simp
    · rw [if_neg hcur, if_neg hcur, ih hm']; simp

theorem splitRunsAux_append_ws (m : List Char) (hm : ∀ c ∈ m, isWsC c = true) :
    ∀ (l cur : List Char), splitRunsAux cur (l ++ m) = splitRunsAux cur l := by
  intro l
  induction l with
  | nil =>
    intro cur
    rw [List.nil_append, splitRunsAux_ws m hm cur, splitRunsAux]
  | cons c l ih =>
    intro cur
    show splitRunsAux cur (c :: (l ++ m)) = _
    rw [splitRunsAux, splitRunsAux]
    by_cases hc : isWsC c
    · rw [if_pos hc, if_pos hc]
      by_cases hcur : cur.isEmpty
      · rw [if_pos hcur, if_pos hcur, ih]
      · rw [if_neg hcur, if_neg hcur, ih]
    · rw [if_neg hc, if_neg hc, ih]

theorem splitRuns_dropWhile_ws (l : List Char) :
    splitRuns (l.dropWhile isWsC) = splitRuns l := by
  induction l with
  | nil => rfl
  | cons c l ih =>
    by_cases hc : isWsC c
    · rw [List.dropWhile_cons, if_pos hc, ih]
      show _ = splitRunsAux [] (c :: l)
      rw [splitRunsAux, if_pos hc]
      simp [splitRuns]
    · rw [List.dropWhile_cons, if_neg hc]

theorem stripS_decomp (l : List Char) :
    ∃ m, l.dropWhile isWsC = stripS l ++ m ∧ ∀ c ∈ m, isWsC c = true := by
  refine ⟨((l.dropWhile isWsC).reverse.takeWhile isWsC).reverse, ?_, ?_⟩
  · unfold stripS
    have h := List.takeWhile_append_dropWhile isWsC (l.dropWhile isWsC).reverse
    calc l.dropWhile isWsC
        = (l.dropWhile isWsC).reverse.reverse := by rw [List.reverse_reverse]
      _ = (List.takeWhile isWsC (l.dropWhile isWsC).reverse ++
            List.dropWhile isWsC (l.dropWhile isWsC).reverse).reverse := by rw [h]
      _ = _ := by rw [List.reverse_append]
  · intro c hc
    rw [List.mem_reverse] at hc
    exact List.mem_takeWhile_imp hc

theorem splitRuns_stripS (l : List Char) : splitRuns (stripS l) = splitRuns l := by
  obtain ⟨m, hm, hmw⟩ := stripS_decomp l
  have h1 : splitRuns (l.dropWhile isWsC) = splitRuns (stripS l) := by
    rw [hm]
    exact splitRunsAux_append_ws m hmw (stripS l) []
  rw [← h1, splitRuns_dropWhile_ws]

theorem splitRunsAux_tokens (l : List Char) :
    ∀ cur, (∀ c ∈ cur, isWsC c = false) →
      ∀ T ∈ splitRunsAux cur l, T ≠ [] ∧ ∀ c ∈ T, isWsC c = false := by
  induction l with
  | nil =>
    intro cur hcur T hT
    rw [splitRunsAux] at hT
    by_cases hc : cur.isEmpty
    · rw [if_pos hc] at hT; exact absurd hT (List.not_mem_nil T)
    · rw [if_neg hc] at hT
      rw [List.mem_singleton] at hT
      subst hT
      refine ⟨by simp [List.isEmpty_iff] at hc; simp [hc], ?_⟩
      intro c hcm; exact hcur c (List.mem_reverse.mp hcm)
  | cons c l ih =>
    intro cur hcur T hT
    rw [splitRunsAux] at hT
    by_cases hc : isWsC c
    · rw [if_pos hc] at hT
      by_cases hcur0 : cur.isEmpty
      · rw [if_pos hcur0] at hT
        exact ih [] (by intro x hx; exact absurd hx (List.not_mem_nil x)) T hT
      · rw [if_neg hcur0] at hT
        rcases List.mem_cons.mp hT with rfl | h
        · refine ⟨by simp [List.isEmpty_iff] at hcur0; simp [hcur0], ?_⟩
          intro x hxm; exact hcur x (List.mem_reverse.mp hxm)
        · exact ih [] (by intro x hx; exact absurd hx (List.not_mem_nil x)) T h
    · rw [if_neg hc] at hT
      refine ih (c :: cur) ?_ T hT
      intro x hx
      rcases List.mem_cons.mp hx with rfl | hx
      · simpa using hc
      · exact hcur x hx

theorem splitRuns_tokens (l : List Char) :
    ∀ T ∈ splitRuns l, T ≠ [] ∧ ∀ c ∈ T, isWsC c = false :=
  splitRunsAux_tokens l [] (by intro x hx; exact absurd hx (List.not_mem_nil x))

theorem splitRuns_joinChars (ts : List (List Char))
    (h : ∀ T ∈ ts, T ≠ [] ∧ ∀ c ∈ T, isWsC c = false) :
    splitRuns (joinChars ts) = ts := by
  induction ts with
  | nil => rfl
  | cons t ts ih =>
    cases ts with
    | nil =>
      show splitRuns t = [t]
      exact splitRuns_single t (h t (by simp)).1 (h t (by simp)).2
    | cons t2 ts2 =>
      show splitRuns (t ++ ' ' :: joinChars (t2 :: ts2)) = _
      rw [splitRuns_cons_run t (joinChars (t2 :: ts2)) (h t (by simp)).1 (h t (by simp)).2]
      rw [ih (fun T hT => h T (by simp [hT]))]

theorem normGo_subset (ts : List (List Char)) :
    ∀ seen, ∀ t ∈ normGo seen ts, t ∈ ts := by
  induction ts with
  | nil => intro seen t ht; exact absurd ht (List.not_mem_nil t)
  | cons a ts ih =>
    intro seen t ht
    rw [normGo] at ht
    by_cases hs : List.elem (lowerS a) (seen.map lowerS) = true
    · rw [if_pos hs] at ht; exact List.mem_cons_of_mem a (ih seen t ht)
    · rw [if_neg hs] at ht
      rcases List.mem_cons.mp ht with rfl | ht
      · exact List.mem_cons_self t ts
      · exact List.mem_cons_of_mem a (ih (seen ++ [a]) t ht)

theorem normGo_idem (ts : List (List Char)) :
    ∀ seen, normGo seen (normGo seen ts) = normGo seen ts := by
  induction ts with
  | nil => intro seen; rfl
  | cons t ts ih =>
    intro seen
    by_cases hs : List.elem (lowerS t) (seen.map lowerS) = true
    · rw [normGo, if_pos hs, ih]
    · rw [normGo, if_neg hs]
      rw [normGo, if_neg hs]
      rw [ih (seen ++ [t])]

/-- C6: for every date string, the Date Normalizer is idempotent —
normalising twice equals normalising once — and it is a pure total
function with the empty string mapped to the empty string. -/
theorem C6_normalize_idempotent (s : String) :
    normalize_date_string (normalize_date_string s) = normalize_date_string s ∧
    normalize_date_string "" = "" := by
  refine ⟨?_, rfl⟩
  show (⟨normChars (normChars s.data)⟩ : String) = ⟨normChars s.data⟩
  congr 1
  unfold normChars
  have htoks : ∀ T ∈ normGo [] (splitRuns s.data), T ≠ [] ∧ ∀ c ∈ T, isWsC c = false :=
    fun T hT => splitRuns_tokens s.data T (normGo_subset (splitRuns s.data) [] T hT)
  rw [splitRuns_joinChars (normGo [] (splitRuns s.data)) htoks]
  rw [normGo_idem]

theorem getLast?_append_right {x y : List Char} (hy : y ≠ []) :
    (x ++ y).getLast? = y.getLast? := by
  rw [List.getLast?_append]
  cases hl : y.getLast? with
  | none => exact absurd (List.getLast?_eq_none_iff.mp hl) hy
  | some c => rfl

theorem stripS_eq_self (l : List Char)
    (h1 : ∀ c, l.head? = some c → isWsC c = false)
    (h2 : ∀ c, l.getLast? = some c → isWsC c = false) :
    stripS l = l := by
  cases l with
  | nil => rfl
  | cons a t =>
    have ha : isWsC a = false := h1 a rfl
    unfold stripS
    rw [List.dropWhile_cons, if_neg (by simp [ha])]
    cases hr : (a :: t).reverse with
    | nil => exact absurd (List.reverse_eq_nil_iff.mp hr) (by simp)
    | cons b r =>
      have hb : (a :: t).getLast? = some b := by
        rw [← List.head?_reverse, hr]; rfl
      have hbw : isWsC b = false := h2 b hb
      have h3 : List.dropWhile isWsC (b :: r) = b :: r := by
        rw [List.dropWhile_cons, if_neg (by simp [hbw])]
      rw [h3, ← hr, List.reverse_reverse]

/-- C7: for all nonempty whitespace-free tokens M, M2, D where M2 is a
letter-case variant of M (a duplicated month token) and D is not, the
Date Parser returns the same value on "M M2 D" as on "M D": it
normalises its input (removing the duplicate) before attempting the
abbreviated-month and full-month formats with the fixed reference year. -/
theorem C7_duplicate_month (M M2 D : List Char)
    (hM : M ≠ []) (hM2 : M2 ≠ []) (hD : D ≠ [])
    (hMw : ∀ c ∈ M, isWsC c = false) (hM2w : ∀ c ∈ M2, isWsC c = false)
    (hDw : ∀ c ∈ D, isWsC c = false)
    (hdup : lowerS M2 = lowerS M) (hdist : lowerS D ≠ lowerS M) :
    parse_surgery_date ⟨M ++ ' ' :: (M2 ++ ' ' :: D)⟩ =
      parse_surgery_date ⟨M ++ ' ' :: D⟩ := by
  obtain ⟨a, M', rfl⟩ : ∃ a M', M = a :: M' := by
    cases M with
    | nil => exact absurd rfl hM
    | cons a M' => exact ⟨a, M', rfl⟩
  obtain ⟨d, hDl⟩ : ∃ d, D.getLast? = some d := by
    cases hl : D.getLast? with
    | none => exact absurd (List.getLast?_eq_none_iff.mp hl) hD
    | some d => exact ⟨d, rfl⟩
  have hdw : isWsC d = false := hDw d (List.mem_of_mem_getLast? (by rw [hDl]; rfl))
  have hstripA : stripS ((a :: M') ++ ' ' :: (M2 ++ ' ' :: D)) =
      (a :: M') ++ ' ' :: (M2 ++ ' ' :: D) := by
    apply stripS_eq_self
    · intro c hc
      have hac : a = c := by simpa using hc
      exact hac ▸ hMw a (by simp)
    · intro c hc
      rw [getLast?_append_right (by simp)] at hc
      rw [show (' ' :: (M2 ++ ' ' :: D)) = [' '] ++ (M2 ++ ' ' :: D) from rfl] at hc
      rw [getLast?_append_right (by simp [hM2])] at hc
      rw [getLast?_append_right (by simp)] at hc
      rw [show (' ' :: D) = [' '] ++ D from rfl] at hc
      rw [getLast?_append_right hD] at hc
      rw [hDl] at hc
      cases hc
      exact hdw
  have hstripB : stripS ((a :: M') ++ ' ' :: D) = (a :: M') ++ ' ' :: D := by
    apply stripS_eq_self
    · intro c hc
      have hac : a = c := by simpa using hc
      exact hac ▸ hMw a (by simp)
    · intro c hc
      rw [getLast?_append_right (by simp)] at hc
      rw [show (' ' :: D) = [' '] ++ D from rfl] at hc
      rw [getLast?_append_right hD] at hc
      rw [hDl] at hc
      cases hc
      exact hdw
  have hsplitA : splitRuns ((a :: M') ++ ' ' :: (M2 ++ ' ' :: D)) = [a :: M', M2, D] := by
    rw [splitRuns_cons_run (a :: M') _ hM hMw]
    rw [splitRuns_cons_run M2 _ hM2 hM2w]
    rw [splitRuns_single D hD hDw]
  have hsplitB : splitRuns ((a :: M') ++ ' ' :: D) = [a :: M', D] := by
    rw [splitRuns_cons_run (a :: M') _ hM hMw]
    rw [splitRuns_single D hD hDw]
  have hnormA : normGo [] [a :: M', M2, D] = [a :: M', D] := by
    rw [normGo, if_neg (by simp [List.elem])]
    rw [normGo, if_pos (by
      simp only [List.nil_append, List.map_cons, List.map_nil, hdup]
      exact List.elem_iff.mpr (by simp))]
    rw [normGo, if_neg (by
      simp only [List.nil_append, List.map_cons, List.map_nil]
      intro h
      exact hdist (by simpa using List.elem_iff.mp h))]
    rfl
  have hnormB : normGo [] [a :: M', D] = [a :: M', D] := by
    rw [normGo, if_neg (by simp [List.elem])]
    rw [normGo, if_neg (by
      simp only [List.nil_append, List.map_cons, List.map_nil]
      intro h
      exact hdist (by simpa using List.elem_iff.mp h))]
    rfl
  show parse_surgery_date ⟨(a :: M') ++ ' ' :: (M2 ++ ' ' :: D)⟩ = _
  unfold parse_surgery_date
  simp only [String.data]
  rw [hstripA, hstripB]
  unfold normChars
  rw [hsplitA, hsplitB, hnormA, hnormB]
  simp

/-- C7 witness: "Jan jan 21" parses identically to "Jan 21", namely to
January 21 of the reference year 2025. -/
theorem C7_witness :
    parse_surgery_date ⟨chars "Jan" ++ ' ' :: (chars "jan" ++ ' ' :: chars "21")⟩ =
      parse_surgery_date ⟨chars "Jan" ++ ' ' :: chars "21"⟩ ∧
    parse_surgery_date "Jan jan 21" = some ⟨2025, 1, 21⟩ :=
  ⟨C7_duplicate_month (chars "Jan") (chars "jan") (chars "21")
      (by decide) (by decide) (by decide) (by decide) (by decide) (by decide)
      (by decide) (by decide),
   by decide⟩

/-- One candidate of the regex alternation: a literal, matched
case-sensitively.  Returns the (consumed, rest) pairs in backtracking
order (here at most one). -/
def litCand (lit : List Char) (l : List Char) : List (List Char × List Char) :=
  if lit.isPrefixOf l then [(lit, l.drop lit.length)] else []

/-- The alternative Dr\.? — greedy, so "Dr." is preferred over "Dr". -/
def candDr (l : List Char) : List (List Char × List Char) :=
  litCand (chars "Dr.") l ++ litCand (chars "Dr") l

/-- Candidates for \d{k1}..\d{k_n} shaped alternatives: for each k in ks
(the greedy backtracking order), consume exactly k leading digits. -/
def candDigits (ks : List Nat) (l : List Char) : List (List Char × List Char) :=
  ks.filterMap (fun k =>
    if (l.take k).length == k && (l.take k).all isDigitC then some (l.take k, l.drop k)
    else none)

/-- The alternative U\d{5,7}. -/
def candU (l : List Char) : List (List Char × List Char) :=
  match l with
  | 'U' :: rest => (candDigits [7, 6, 5] rest).map (fun p => ('U' :: p.1, p.2))
  | _ => []

/-- The optional separator [- ]? of the phone alternative: consumed when
the flag says so and the next character is a dash or space. -/
def sepCand (b : Bool) (l : List Char) : Option (List Char × List Char) :=
  if b then
    match l with
    | c :: r => if c == '-' || c == ' ' then some ([c], r) else none
    | [] => none
  else some ([], l)

/-- One backtracking path of the phone alternative
\d{3}[- ]?\d{3}[- ]?\d{4}, with the two separator choices fixed. -/
def phoneCombo (s1 s2 : Bool) (l : List Char) : Option (List Char × List Char) :=
  (digitsTake 3 l).bind fun p1 =>
    (sepCand s1 p1.2).bind fun q1 =>
      (digitsTake 3 q1.2).bind fun p2 =>
        (sepCand s2 p2.2).bind fun q2 =>
          (digitsTake 4 q2.2).map fun p3 =>
            (p1.1 ++ q1.1 ++ p2.1 ++ q2.1 ++ p3.1, p3.2)

/-- The phone alternative: both separators greedy, so the backtracking
order of the four separator combinations is yy, yn, ny, nn. -/
def candPhone (l : List Char) : List (List Char × List Char) :=
  [(true, true), (true, false), (false, true), (false, false)].filterMap
    (fun p => phoneCombo p.1 p.2 l)

/-- The alternative [A-Za-z]+ — greedy: the whole letter run first, then
ever shorter prefixes down to one letter. -/
def candAlpha (l : List Char) : List (List Char × List Char) :=
  (List.range (l.takeWhile isAlphaC).length).map
    (fun i => (l.take ((l.takeWhile isAlphaC).length - i),
               l.drop ((l.takeWhile isAlphaC).length - i)))

/-- The twelve full month names, in the order of the regex alternation
of src/app.py line 27. -/
def monthLits : List (List Char) :=
  [chars "January", chars "February", chars "March", chars "April", chars "May",
   chars "June", chars "July", chars "August", chars "September", chars "October",
   chars "November", chars "December"]

/-- All candidates of the token alternation of src/app.py line 27, in
the alternation order of the pattern:
Dr\.? | CAV | Pang | Garfinkle | Morin | Faria | Ghitulescu | Vasilevsky
| U\d{5,7} | \d{5,7} | \d{3}[- ]?\d{3}[- ]?\d{4} | [A-Za-z]+ | sx | OR
| the twelve month names | \d{1,2}. -/
def altCandidates (l : List Char) : List (List Char × List Char) :=
  candDr l ++ litCand (chars "CAV") l ++ litCand (chars "Pang") l ++
  litCand (chars "Garfinkle") l ++ litCand (chars "Morin") l ++
  litCand (chars "Faria") l ++ litCand (chars "Ghitulescu") l ++
  litCand (chars "Vasilevsky") l ++ candU l ++ candDigits [7, 6, 5] l ++
  candPhone l ++ candAlpha l ++ litCand (chars "sx") l ++ litCand (chars "OR") l ++
  (monthLits.map (fun m => litCand m l)).flatten ++ candDigits [2, 1] l

/-- Word-character test on an optional character (positions outside the
string count as non-word). -/
def isWordO : Option Char → Bool
  | none => false
  | some c => isWordC c

/-- The regex word boundary \b between two adjacent positions: exactly
one side is a word character. -/
def wordBoundaryB (a b : Option Char) : Bool := isWordO a != isWordO b

/-- One match attempt of the pattern \b(?:...)\b at the current
position: the boundary must hold between the previous character and the
first matched character, the alternation candidates are tried in order,
and the first candidate followed by a word boundary wins. -/
def tryMatch (prev : Option Char) (l : List Char) : Option (List Char × List Char) :=
  if wordBoundaryB prev l.head? then
    (altCandidates l).find? (fun p => wordBoundaryB p.1.getLast? p.2.head?)
  else none

/-- The scan loop of re.findall: at each position try to match; on a
match emit the token and continue after it, otherwise advance one
character.  Every candidate consumes at least one character, so the fuel
(initialised to the input length) never runs out. -/
def findAllGo : Nat → Option Char → List Char → List (List Char)
  | 0, _, _ => []
  | _ + 1, _, [] => []
  | fuel + 1, prev, c :: rest =>
    match tryMatch prev (c :: rest) with
    | some (con, rem) => con :: findAllGo fuel con.getLast? rem
    | none => findAllGo fuel (some c) rest

/-- re.findall of the token pattern of src/app.py line 27 over the raw
input. -/
def tokenize (text : String) : List (List Char) :=
  findAllGo text.data.length none text.data

/-- The months list used by the classifier (full names, compared after
str.capitalize). -/
def monthCaps : List (List Char) := monthLits

/-- Python str.capitalize: first character upper-cased, the rest
lower-cased. -/
def pyCapitalize : List Char → List Char
  | [] => []
  | c :: cs => upperC c :: lowerS cs

/-- re.search of \d{3}[- ]?\d{3}[- ]?\d{4} inside a token (used by the
classifier): the phone shape occurs at some position. -/
def searchPhone : List Char → Bool
  | [] => false
  | c :: t => !(candPhone (c :: t)).isEmpty || searchPhone t

/-- The classify helper inside split_patient_chunks (src/app.py lines
33-45).  The ID test is re.match(r"\d{5,7}", token), true exactly when
the token starts with at least five digits. -/
def classify (token : List Char) : String :=
  if decide (5 ≤ (token.takeWhile isDigitC).length) then "ID"
  else if searchPhone token then "Phone"
  else if lowerS token == chars "sx" || lowerS token == chars "or" then "Context"
  else if List.elem (pyCapitalize token) monthCaps then "Date"
  else if List.elem (lowerS token) [chars "pang", chars "ghitulescu", chars "garfinkle",
      chars "faria", chars "morin", chars "cav", chars "vasilevsky"] then "Surgeon"
  else "Other"

/-- The chunking loop of split_patient_chunks (src/app.py lines 30-56):
a boundary is opened before a token whose non-Other category was already
seen; tokens are appended to the current chunk and non-Other categories
to the seen set; the final chunk is flushed when nonempty. -/
def chunkGo (seen : List String) (current : List (List Char)) :
    List (List Char) → List (List (List Char))
  | [] => if current.isEmpty then [] else [current]
  | tok :: toks =>
    if classify tok ∈ seen ∧ classify tok ≠ "Other" then
      current :: chunkGo [classify tok] [tok] toks
    else
      chunkGo (if classify tok = "Other" then seen
               else if classify tok ∈ seen then seen else classify tok :: seen)
        (current ++ [tok]) toks

/-- The chunks of a token stream, as token lists. -/
def chunkTokens (toks : List (List Char)) : List (List (List Char)) := chunkGo [] [] toks

/-- src/app.py, split_patient_chunks (lines 21-57): tokenize, chunk,
join each chunk with single spaces. -/
def split_patient_chunks (text : String) : List String :=
  (chunkTokens (tokenize text)).map (fun c => ⟨joinChars c⟩)

example : tokenize "Dr Morin sx Jan jan 21 176421 514-867-4718 Raphael Benatar" =
  [chars "Dr", chars "Morin", chars "sx", chars "Jan", chars "jan", chars "21",
   chars "176421", chars "514-867-4718", chars "Raphael", chars "Benatar"] := by decide

example : split_patient_chunks "Dr Morin sx Jan jan 21 176421 514-867-4718 Raphael Benatar" =
  ["Dr Morin sx Jan jan 21 176421 514-867-4718 Raphael Benatar"] := by decide

example : classify (chars "U176421") = "Other" := by decide
example : classify (chars "176421") = "ID" := by decide
example : classify (chars "5148674718") = "ID" := by decide
example : tokenize "5148674718" = [chars "5148674718"] := by decide
example : tokenize "   " = [] := by decide
example : tokenize "Jan21" = [] := by decide
example : classify (chars "514-867-4718") = "Phone" := by decide
example : classify (chars "Dr") = "Other" := by decide
example : classify (chars "Jan") = "Other" := by decide
example : classify (chars "January") = "Date" := by decide
example : classify (chars "morin") = "Surgeon" := by decide
example : classify (chars "SX") = "Context" := by decide

theorem chunkGo_flatten (toks : List (List Char)) :
    ∀ seen current, (chunkGo seen current toks).flatten = current ++ toks := by
  induction toks with
  | nil =>
    intro seen current
    by_cases h : current.isEmpty
    · have h0 : current = [] := List.isEmpty_iff.mp h
      simp [chunkGo, h, h0]
    · simp [chunkGo, h]
  | cons tok toks ih =>
    intro seen current
    by_cases hb : classify tok ∈ seen ∧ classify tok ≠ "Other"
    · simp only [chunkGo, if_pos hb, List.flatten_cons, ih]
      simp
    · simp only [chunkGo, if_neg hb, ih]
      simp

theorem chunkGo_ne_nil (toks : List (List Char)) :
    ∀ seen current, (seen ≠ [] → current ≠ []) →
      ∀ c ∈ chunkGo seen current toks, c ≠ [] := by
  induction toks with
  | nil =>
    intro seen current _ c hc
    by_cases h : current.isEmpty
    · simp only [chunkGo, if_pos h] at hc
      exact absurd hc (List.not_mem_nil c)
    · simp only [chunkGo, if_neg h] at hc
      rw [List.mem_singleton] at hc
      subst hc
      simpa [List.isEmpty_iff] using h
  | cons tok toks ih =>
    intro seen current hinv c hc
    by_cases hb : classify tok ∈ seen ∧ classify tok ≠ "Other"
    · simp only [chunkGo, if_pos hb] at hc
      rcases List.mem_cons.mp hc with rfl | hc2
      · exact hinv (List.ne_nil_of_mem hb.1)
      · exact ih [classify tok] [tok] (fun _ => by simp) c hc2
    · simp only [chunkGo, if_neg hb] at hc
      exact ih _ (current ++ [tok]) (fun _ => by simp) c hc

theorem chunkGo_mem_tokens (toks : List (List Char)) :
    ∀ seen current c, c ∈ chunkGo seen current toks → ∀ t ∈ c, t ∈ current ∨ t ∈ toks := by
  induction toks with
  | nil =>
    intro seen current c hc t ht
    by_cases h : current.isEmpty
    · simp only [chunkGo, if_pos h] at hc
      exact absurd hc (List.not_mem_nil c)
    · simp only [chunkGo, if_neg h] at hc
      rw [List.mem_singleton] at hc
      subst hc
      exact Or.inl ht
  | cons tok toks ih =>
    intro seen current c hc t ht
    by_cases hb : classify tok ∈ seen ∧ classify tok ≠ "Other"
    · simp only [chunkGo, if_pos hb] at hc
      rcases List.mem_cons.mp hc with rfl | hc2
      · exact Or.inl ht
      · rcases ih [classify tok] [tok] c hc2 t ht with h1 | h1
        · rw [List.mem_singleton] at h1
          subst h1
          exact Or.inr (List.mem_cons_self _ _)
        · exact Or.inr (List.mem_cons_of_mem _ h1)
    · simp only [chunkGo, if_neg hb] at hc
      rcases ih _ (current ++ [tok]) c hc t ht with h1 | h1
      · rcases List.mem_append.mp h1 with h2 | h2
        · exact Or.inl h2
        · rw [List.mem_singleton] at h2
          subst h2
          exact Or.inr (List.mem_cons_self _ _)
      · exact Or.inr (List.mem_cons_of_mem _ h1)

theorem litCand_mem {lit l : List Char} {p : List Char × List Char}
    (h : p ∈ litCand lit l) : p.1 = lit := by
  unfold litCand at h
  by_cases hp : lit.isPrefixOf l
  · rw [if_pos hp, List.mem_singleton] at h
    rw [h]
  · rw [if_neg hp] at h
    exact absurd h (List.not_mem_nil p)

theorem candDigits_mem {ks : List Nat} {l : List Char} {p : List Char × List Char}
    (h : p ∈ candDigits ks l) :
    ∃ k ∈ ks, p.1.length = k ∧ p.1 = l.take k ∧ p.2 = l.drop k ∧
      p.1.all isDigitC = true := by
  rw [candDigits, List.mem_filterMap] at h
  obtain ⟨k, hk, he⟩ := h
  by_cases hc : ((l.take k).length == k && (l.take k).all isDigitC) = true
  · rw [if_pos hc, Option.some_inj] at he
    rw [Bool.and_eq_true, beq_iff_eq] at hc
    obtain ⟨p1, p2⟩ := p
    rw [Prod.mk.injEq] at he
    obtain ⟨h1, h2⟩ := he
    exact ⟨k, hk, by rw [← h1]; exact hc.1, h1.symm, h2.symm, by rw [← h1]; exact hc.2⟩
  · rw [if_neg hc] at he
    cases he

theorem digitsTake_some {k : Nat} {l c r : List Char} (h : digitsTake k l = some (c, r)) :
    c = l.take k ∧ r = l.drop k ∧ c.length = k ∧ c.all isDigitC = true := by
  unfold digitsTake at h
  by_cases hc : ((l.take k).length == k && (l.take k).all isDigitC) = true
  · rw [if_pos hc, Option.some_inj, Prod.mk.injEq] at h
    obtain ⟨h1, h2⟩ := h
    rw [Bool.and_eq_true, beq_iff_eq] at hc
    exact ⟨h1.symm, h2.symm, h1 ▸ hc.1, h1 ▸ hc.2⟩
  · rw [if_neg hc] at h
    cases h

theorem sepCand_some {b : Bool} {l x r : List Char} (h : sepCand b l = some (x, r)) :
    l.length ≤ r.length + 1 ∧ r.length ≤ l.length := by
  cases b with
  | false =>
    have h2 : some (([] : List Char), l) = some (x, r) := h
    rw [Option.some_inj, Prod.mk.injEq] at h2
    obtain ⟨rfl, rfl⟩ := h2
    omega
  | true =>
    cases l with
    | nil => exact Option.noConfusion h
    | cons a t =>
      have h2 : (if (a == '-' || a == ' ') = true then some ([a], t) else none) =
          some (x, r) := h
      by_cases hc : (a == '-' || a == ' ') = true
      · rw [if_pos hc, Option.some_inj, Prod.mk.injEq] at h2
        obtain ⟨rfl, rfl⟩ := h2
        simp
      · rw [if_neg hc] at h2
        cases h2

theorem phoneCombo_some {s1 s2 : Bool} {l : List Char} {con rest : List Char}
    (h : phoneCombo s1 s2 l = some (con, rest)) : con ≠ [] ∧ 10 ≤ l.length := by
  unfold phoneCombo at h
  rw [Option.bind_eq_some] at h
  obtain ⟨p1, h1, h⟩ := h
  rw [Option.bind_eq_some] at h
  obtain ⟨q1, h2, h⟩ := h
  rw [Option.bind_eq_some] at h
  obtain ⟨p2, h3, h⟩ := h
  rw [Option.bind_eq_some] at h
  obtain ⟨q2, h4, h⟩ := h
  rw [Option.map_eq_some'] at h
  obtain ⟨p3, h5, h6⟩ := h
  obtain ⟨d1, r1⟩ := p1
  obtain ⟨x1, r2⟩ := q1
  obtain ⟨d2, r3⟩ := p2
  obtain ⟨x2, r4⟩ := q2
  obtain ⟨d3, r5⟩ := p3
  rw [Prod.mk.injEq] at h6
  obtain ⟨hcon, hrest⟩ := h6
  dsimp only at h2 h3 h4 h5 hcon hrest
  obtain ⟨hc1, hr1, hl1, _⟩ := digitsTake_some h1
  obtain ⟨hs1, hs1b⟩ := sepCand_some h2
  obtain ⟨hc3, hr3, hl3, _⟩ := digitsTake_some h3
  obtain ⟨hs2, hs2b⟩ := sepCand_some h4
  obtain ⟨hc5, hr5, hl5, _⟩ := digitsTake_some h5
  constructor
  · rw [← hcon]
    intro hnil
    have hd1 : d1 = [] := by
      cases d1 with
      | nil => rfl
      | cons a t => simp at hnil
    rw [hd1] at hl1
    simp at hl1
  · have e1 : r1.length = l.length - 3 := by rw [hr1]; simp
    have e1b : 3 ≤ l.length := by
      have := congrArg List.length hc1
      simp [List.length_take] at this
      omega
    have e3 : r3.length = r2.length - 3 := by rw [hr3]; simp
    have e3b : 3 ≤ r2.length := by
      have := congrArg List.length hc3
      simp [List.length_take] at this
      omega
    have e5b : 4 ≤ r4.length := by
      have := congrArg List.length hc5
      simp [List.length_take] at this
      omega
    omega

theorem altCandidates_ne_nil {l : List Char} :
    ∀ p ∈ altCandidates l, p.1 ≠ [] := by
  intro p hp
  rw [altCandidates] at hp
  simp only [List.mem_append] at hp
  rcases hp with
    (((((((((((((((h | h) | h) | h) | h) | h) | h) | h) | h) | h) | h) | h) | h) | h) | h) | h)
  · rcases List.mem_append.mp h with h2 | h2
    · rw [litCand_mem h2]; decide
    · rw [litCand_mem h2]; decide
  · rw [litCand_mem h]; decide
  · rw [litCand_mem h]; decide
  · rw [litCand_mem h]; decide
  · rw [litCand_mem h]; decide
  · rw [litCand_mem h]; decide
  · rw [litCand_mem h]; decide
  · rw [litCand_mem h]; decide
  · unfold candU at h
    split at h
    · rw [List.mem_map] at h
      obtain ⟨q, _, hq⟩ := h
      rw [← hq]
      simp
    · exact absurd h (List.not_mem_nil p)
  · obtain ⟨k, hk, hlen, _, _, _⟩ := candDigits_mem h
    have hk1 : 1 ≤ k := by
      have : ∀ x ∈ [7, 6, 5], 1 ≤ x := by decide
      exact this k hk
    intro hnil
    rw [hnil] at hlen
    simp at hlen
    omega
  · rw [candPhone, List.mem_filterMap] at h
    obtain ⟨a, _, ha⟩ := h
    obtain ⟨con, rest⟩ := p
    exact (phoneCombo_some ha).1
  · rw [candAlpha, List.mem_map] at h
    obtain ⟨i, hi, he⟩ := h
    rw [List.mem_range] at hi
    rw [← he]
    intro hnil
    have hlen := congrArg List.length hnil
    simp only [List.length_take, List.length_nil] at hlen
    have hle := (List.takeWhile_sublist (l := l) isAlphaC).length_le
    omega
  · rw [litCand_mem h]; decide
  · rw [litCand_mem h]; decide
  · rw [List.mem_flatten] at h
    obtain ⟨fam, hfam, hpf⟩ := h
    rw [List.mem_map] at hfam
    obtain ⟨m, hm, rfl⟩ := hfam
    rw [litCand_mem hpf]
    have : ∀ x ∈ monthLits, x ≠ [] := by decide
    exact this m hm
  · obtain ⟨k, hk, hlen, _, _, _⟩ := candDigits_mem h
    have hk1 : 1 ≤ k := by
      have : ∀ x ∈ [2, 1], 1 ≤ x := by decide
      exact this k hk
    intro hnil
    rw [hnil] at hlen
    simp at hlen
    omega

theorem findAllGo_ne_nil : ∀ (fuel : Nat) (prev : Option Char) (l : List Char),
    ∀ t ∈ findAllGo fuel prev l, t ≠ [] := by
  intro fuel
  induction fuel with
  | zero => intro prev l t ht; exact absurd ht (List.not_mem_nil t)
  | succ fuel ih =>
    intro prev l t ht
    cases l with
    | nil => exact absurd ht (List.not_mem_nil t)
    | cons c rest =>
      simp only [findAllGo] at ht
      cases hm : tryMatch prev (c :: rest) with
      | none =>
        rw [hm] at ht
        exact ih (some c) rest t ht
      | some pr =>
        rw [hm] at ht
        obtain ⟨con, rem⟩ := pr
        rcases List.mem_cons.mp ht with rfl | ht2
        · unfold tryMatch at hm
          by_cases hbd : wordBoundaryB prev (c :: rest).head? = true
          · rw [if_pos hbd] at hm
            exact altCandidates_ne_nil (t, rem) (List.mem_of_find?_eq_some hm)
          · rw [if_neg hbd] at hm
            cases hm
        · exact ih con.getLast? rem t ht2

theorem tokenize_ne_nil (text : String) : ∀ t ∈ tokenize text, t ≠ [] :=
  findAllGo_ne_nil text.data.length none text.data

/-- C4: segmentation is total and lossless.  For every input string, the
chunks of the classified token stream concatenate back to exactly that
token stream in order (whitespace-insensitive losslessness); no returned
chunk is empty, neither as a token list nor as a joined string; and an
input yielding no tokens produces zero chunks. -/
theorem C4_segmentation_lossless (text : String) :
    (chunkTokens (tokenize text)).flatten = tokenize text ∧
    (∀ c ∈ chunkTokens (tokenize text), c ≠ []) ∧
    (tokenize text = [] → split_patient_chunks text = []) ∧
    (∀ s ∈ split_patient_chunks text, s ≠ "") := by
  refine ⟨?_, ?_, ?_, ?_⟩
  · rw [chunkTokens, chunkGo_flatten]
    rfl
  · exact fun c hc => chunkGo_ne_nil (tokenize text) [] [] (fun h => absurd rfl h) c hc
  · intro h
    simp [split_patient_chunks, chunkTokens, chunkGo, h]
  · intro s hs
    rw [split_patient_chunks, List.mem_map] at hs
    obtain ⟨c, hc, rfl⟩ := hs
    have hcn : c ≠ [] := chunkGo_ne_nil (tokenize text) [] [] (fun h => absurd rfl h) c hc
    obtain ⟨t0, c', rfl⟩ : ∃ t0 c', c = t0 :: c' := by
      cases c with
      | nil => exact absurd rfl hcn
      | cons t0 c' => exact ⟨t0, c', rfl⟩
    have ht0 : t0 ∈ [] ∨ t0 ∈ tokenize text :=
      chunkGo_mem_tokens (tokenize text) [] [] (t0 :: c') hc t0 (by simp)
    have ht0n : t0 ≠ [] := by
      rcases ht0 with h1 | h1
      · exact absurd h1 (List.not_mem_nil t0)
      · exact tokenize_ne_nil text t0 h1
    intro heq
    have hdat : joinChars (t0 :: c') = [] := congrArg String.data heq
    cases c' with
    | nil => exact ht0n hdat
    | cons t1 c'' =>
      have hdat2 : joinChars (t0 :: t1 :: c'') = t0 ++ ' ' :: joinChars (t1 :: c'') := rfl
      rw [hdat2] at hdat
      rcases List.append_eq_nil.mp hdat with ⟨h1, h2⟩
      exact List.noConfusion h2

/-- C4 witness: a concrete two-token input is rebuilt losslessly from
its chunks, and whitespace-only input (no tokens) yields zero chunks. -/
theorem C4_witness :
    (chunkTokens (tokenize "Dr Morin sx 176421")).flatten = tokenize "Dr Morin sx 176421" ∧
    split_patient_chunks "   " = [] :=
  ⟨(C4_segmentation_lossless "Dr Morin sx 176421").1,
   (C4_segmentation_lossless "   ").2.2.1 (by decide)⟩

/-- C5: the scenario input yields exactly one chunk, namely the whole
line; the Unifier maps "Dr Morin" to "Dr. Morin"; the Normalizer maps
"Jan jan 21" to "Jan 21"; the Parser yields January 21 of the fixed
reference year 2025. -/
theorem C5_scenario :
    split_patient_chunks "Dr Morin sx Jan jan 21 176421 514-867-4718 Raphael Benatar" =
      ["Dr Morin sx Jan jan 21 176421 514-867-4718 Raphael Benatar"] ∧
    unify_surgeon_name "Dr Morin" = "Dr. Morin" ∧
    normalize_date_string "Jan jan 21" = "Jan 21" ∧
    parse_surgery_date "Jan jan 21" = some ⟨2025, 1, 21⟩ :=
  ⟨by decide, by decide, by decide, by decide⟩

theorem lowerC_digit {c : Char} (h : isDigitC c = true) : lowerC c = c := by
  unfold isDigitC at h
  rw [decide_eq_true_eq] at h
  unfold lowerC
  rw [if_neg]
  intro hc
  omega

theorem lowerS_digits {l : List Char} (h : ∀ c ∈ l, isDigitC c = true) : lowerS l = l := by
  induction l with
  | nil => rfl
  | cons c t ih =>
    show lowerC c :: lowerS t = c :: t
    rw [lowerC_digit (h c (by simp)), ih (fun x hx => h x (by simp [hx]))]

theorem takeWhile_digits {l : List Char} (h : ∀ c ∈ l, isDigitC c = true) :
    l.takeWhile isDigitC = l := by
  induction l with
  | nil => rfl
  | cons c t ih =>
    rw [List.takeWhile_cons, if_pos (h c (by simp)), ih (fun x hx => h x (by simp [hx]))]

theorem candPhone_nil_of_short {l : List Char} (h : l.length < 10) : candPhone l = [] := by
  rw [List.eq_nil_iff_forall_not_mem]
  intro p hp
  rw [candPhone, List.mem_filterMap] at hp
  obtain ⟨a, _, ha⟩ := hp
  obtain ⟨con, rest⟩ := p
  have := (phoneCombo_some ha).2
  omega

theorem searchPhone_short : ∀ l : List Char, l.length < 10 → searchPhone l = false := by
  intro l
  induction l with
  | nil => intro _; rfl
  | cons c t ih =>
    intro h
    show (!(candPhone (c :: t)).isEmpty || searchPhone t) = false
    rw [candPhone_nil_of_short (by simpa using h)]
    rw [ih (by simp at h; omega)]
    rfl

theorem head_ne_of_head?_ne {x : Char} {ds m : List Char}
    (h : m.head? ≠ some x) : x :: ds ≠ m := fun he => h (by rw [← he]; rfl)

theorem classify_prefixed_other {u : Char} (ds : List Char) (hu : u = 'U' ∨ u = 'u')
    (h5 : 5 ≤ ds.length) (h7 : ds.length ≤ 7) (hd : ∀ c ∈ ds, isDigitC c = true) :
    classify (u :: ds) = "Other" := by
  have hud : isDigitC u = false := by rcases hu with rfl | rfl <;> decide
  have hlow : lowerS (u :: ds) = 'u' :: ds := by
    show lowerC u :: lowerS ds = _
    rw [lowerS_digits hd]
    rcases hu with rfl | rfl <;> rfl
  have hcap : pyCapitalize (u :: ds) = 'U' :: ds := by
    show upperC u :: lowerS ds = _
    rw [lowerS_digits hd]
    rcases hu with rfl | rfl <;> rfl
  have htw : (u :: ds).takeWhile isDigitC = [] := by
    rw [List.takeWhile_cons, if_neg (by rw [hud]; exact Bool.false_ne_true)]
  unfold classify
  rw [if_neg (by rw [htw]; decide)]
  rw [if_neg (by
    rw [searchPhone_short (u :: ds) (by simp; omega)]
    exact Bool.false_ne_true)]
  rw [if_neg (by
    rw [hlow]
    have h1 : (('u' :: ds : List Char) == chars "sx") = false :=
      beq_eq_false_iff_ne.mpr (head_ne_of_head?_ne (by decide))
    have h2 : (('u' :: ds : List Char) == chars "or") = false :=
      beq_eq_false_iff_ne.mpr (head_ne_of_head?_ne (by decide))
    rw [h1, h2]
    exact Bool.false_ne_true)]
  rw [if_neg (by
    rw [hcap]
    intro he
    have hmem := List.elem_iff.mp he
    have hh : ∀ m ∈ monthCaps, m.head? ≠ some 'U' := by decide
    exact hh _ hmem rfl)]
  rw [if_neg (by
    rw [hlow]
    intro he
    have hmem := List.elem_iff.mp he
    have hh : ∀ m ∈ [chars "pang", chars "ghitulescu", chars "garfinkle",
        chars "faria", chars "morin", chars "cav", chars "vasilevsky"],
        m.head? ≠ some 'u' := by decide
    exact hh _ hmem rfl)]

/-- C10 (amended): a token of the prefixed ID shape — the letter U or u
followed by five to seven digits, such as "U176421" — is classified
"Other", hence is never added to the seen-category set and never opens a
chunk boundary in split_patient_chunks; a bare five-to-seven digit run
is classified "ID".  Correcting the final clause of the claim: the ID
test is re.match on \d{5,7}, which only requires five leading digits, so
bare digit runs are not the only tokens classified "ID" — a ten-digit
phone-shaped token is as well (see the counterexample theorem). -/
theorem C10_prefixed_id_other (ds : List Char) (h5 : 5 ≤ ds.length) (h7 : ds.length ≤ 7)
    (hd : ∀ c ∈ ds, isDigitC c = true) :
    classify ('U' :: ds) = "Other" ∧ classify ('u' :: ds) = "Other" ∧
    classify ds = "ID" ∧
    (∀ seen current toks, chunkGo seen current (('U' :: ds) :: toks) =
        chunkGo seen (current ++ ['U' :: ds]) toks) := by
  have hU : classify ('U' :: ds) = "Other" :=
    classify_prefixed_other ds (Or.inl rfl) h5 h7 hd
  have hu : classify ('u' :: ds) = "Other" :=
    classify_prefixed_other ds (Or.inr rfl) h5 h7 hd
  refine ⟨hU, hu, ?_, ?_⟩
  · unfold classify
    rw [if_pos (by rw [takeWhile_digits hd, decide_eq_true_eq]; exact h5)]
  · intro seen current toks
    simp only [chunkGo]
    rw [if_neg (fun hcontra => hcontra.2 hU)]
    rw [if_pos hU]

/-- C10 counterexample to the final clause of the claim: the ten-digit
phone-shaped token "5148674718", which the tokenizer produces, starts
with five digits, so the classifier labels it "ID" although it is not a
bare five-to-seven digit run. -/
theorem C10_counterexample :
    classify (chars "5148674718") = "ID" ∧
    tokenize "5148674718" = [chars "5148674718"] ∧
    (chars "5148674718").length = 10 ∧
    (chars "5148674718").all isDigitC = true :=
  ⟨by decide, by decide, by decide, by decide⟩

/-- C10 witness: the concrete token "U176421" is classified "Other" and
the bare run "176421" is classified "ID". -/
theorem C10_witness :
    (5 ≤ (chars "176421").length ∧ (chars "176421").length ≤ 7) ∧
    classify ('U' :: chars "176421") = "Other" ∧ classify (chars "176421") = "ID" :=
  ⟨⟨by decide, by decide⟩,
   (C10_prefixed_id_other (chars "176421") (by decide) (by decide) (by decide)).1,
   (C10_prefixed_id_other (chars "176421") (by decide) (by decide) (by decide)).2.2.1⟩

/-- Field access with the pandas defaulting behaviour of the assembly
pipeline: a key missing from a record reads as the empty string (an
absent expected column is filled with "" at line 191, and remaining NaN
cells are blanked by fillna("") at output). -/
def getD (r : List (String × String)) (k : String) : String :=
  match r.lookup k with
  | some v => v
  | none => ""

/-- src/app.py line 195: str.replace(r"^[Uu]\s*", "") on a Patient ID —
remove one leading letter U or u together with the following
whitespace. -/
def stripU (s : String) : String :=
  match s.data with
  | c :: rest => if c == 'U' || c == 'u' then ⟨rest.dropWhile isWsC⟩ else s
  | [] => s

/-- The fixed display column order (src/app.py line 188). -/
def expectedCols : List String :=
  ["Surgeon", "Patient Name", "Patient ID", "Surgery Date", "Phone"]

/-- One record after the per-column normalisations of src/app.py lines
188-198: every expected field present (missing reads as ""), the
Surgeon unified, the Patient ID stripped of its prefix, the Surgery Date
normalised.  Only the expected columns survive the final projection
df[expected_cols] of line 201, so any other key — in particular the
"Error" marker — is dropped here. -/
def rowTransform (r : List (String × String)) : List (String × String) :=
  [("Surgeon", unify_surgeon_name (getD r "Surgeon")),
   ("Patient Name", getD r "Patient Name"),
   ("Patient ID", stripU (getD r "Patient ID")),
   ("Surgery Date", normalize_date_string (getD r "Surgery Date")),
   ("Phone", getD r "Phone")]

/-- Strict ordering of parsed dates (year, month, day). -/
def sdLt (a b : SDate) : Bool :=
  decide (a.year < b.year ∨ (a.year = b.year ∧ (a.month < b.month ∨
    (a.month = b.month ∧ a.day < b.day))))

/-- Stable insertion into a keyed row list sorted ascending by date:
walk past strictly smaller keys, so an earlier record is placed before
any equal-keyed later record. -/
def insertRow (x : SDate × List (String × String)) :
    List (SDate × List (String × String)) → List (SDate × List (String × String))
  | [] => [x]
  | y :: ys => if sdLt y.1 x.1 then y :: insertRow x ys else x :: y :: ys

/-- Stable insertion sort of the keyed rows. -/
def sortRows : List (SDate × List (String × String)) →
    List (SDate × List (String × String))
  | [] => []
  | x :: xs => insertRow x (sortRows xs)

/-- The Record Assembler (src/app.py lines 187-201): normalise each
record, compute the parse key from the already-normalised Surgery Date,
sort ascending by key with unparseable dates last (na_position "last"
appends the NaN rows in their original order; the comparison sort of the
non-NaN keys is modelled here by a stable insertion sort, while the
source calls pandas sort_values with its default kind "quicksort", which
does not guarantee stability — the C3 analysis records this divergence),
then drop the key, keeping the expected columns in display order. -/
def assembleSchedule (records : List (List (String × String))) :
    List (List (String × String)) :=
  let keyed := (records.map rowTransform).map
    (fun r => (parse_surgery_date (getD r "Surgery Date"), r))
  let withKey := keyed.filterMap (fun p =>
    match p.1 with
    | some d => some (d, p.2)
    | none => none)
  let noKey := (keyed.filter (fun p => p.1.isNone)).map (fun p => p.2)
  (sortRows withKey).map (fun p => p.2) ++ noKey

/-- The Extraction Collaborator Adapter, extract_with_gpt (src/app.py
lines 115-173).  The body of the try block — the network call, the
fence stripping and the JSON decoding — is the external collaborator
(spec section 4.6) and is modelled by its outcome: either a decoded
record list or a raised exception message.  The except arm (lines
172-173) converts any raised message into the single-element
error-marker list instead of re-raising. -/
def extract_with_gpt (body : Except String (List (List (String × String)))) :
    List (List (String × String)) :=
  match body with
  | Except.ok recs => recs
  | Except.error e => [[("Error", e)]]

/-- C2 (amended): for every extraction-collaborator failure, the Adapter
returns the single-element list [{"Error": msg}] instead of raising, and
the Assembler then emits exactly one row whose five expected fields are
all blank.  The "Error" marker column is dropped by the final column
projection (line 201), so — correcting the original claim — the error
message is not visible in the final Schedule output; it is only shown by
the intermediate raw-output display (line 185). -/
theorem C2_error_marker_row (msg : String) :
    extract_with_gpt (Except.error msg) = [[("Error", msg)]] ∧
    assembleSchedule (extract_with_gpt (Except.error msg)) =
      [[("Surgeon", ""), ("Patient Name", ""), ("Patient ID", ""),
        ("Surgery Date", ""), ("Phone", "")]] :=
  ⟨rfl, rfl⟩

/-- C2 counterexample to the visibility clause of the claim: at the
concrete failure message "network fault" the final Schedule is one row
of blank expected fields; no key of the output row is "Error" and no
cell carries the message, so the error is not visible via the marker key
in the Assembler output. -/
theorem C2_counterexample :
    assembleSchedule (extract_with_gpt (Except.error "network fault")) =
      [[("Surgeon", ""), ("Patient Name", ""), ("Patient ID", ""),
        ("Surgery Date", ""), ("Phone", "")]] ∧
    (assembleSchedule (extract_with_gpt (Except.error "network fault"))).all
      (fun row => row.all (fun p => !(p.1 == "Error") && p.2 == "")) = true :=
  ⟨by decide, by decide⟩

theorem toNat_ofNat_valid {n : Nat} (h1 : 32 ≤ n) (h2 : n ≤ 122) :
    (Char.ofNat n).toNat = n := by
  unfold Char.ofNat
  rw [dif_pos (Or.inl (by omega))]
  simp [Char.ofNatAux, Char.toNat, UInt32.ofNat', UInt32.toNat, BitVec.toNat_ofNatLt]

theorem digit_not_ws {c : Char} (h : isDigitC c = true) : isWsC c = false := by
  unfold isDigitC at h
  rw [decide_eq_true_eq] at h
  unfold isWsC
  rw [decide_eq_false_iff_not]
  omega

theorem alpha_not_ws {c : Char} (h : isAlphaC c = true) : isWsC c = false := by
  unfold isAlphaC at h
  rw [decide_eq_true_eq] at h
  unfold isWsC
  rw [decide_eq_false_iff_not]
  omega

theorem digit_alpha_false {c : Char} (h1 : isDigitC c = true)
    (h2 : isAlphaC c = true) : False := by
  unfold isDigitC at h1
  unfold isAlphaC at h2
  rw [decide_eq_true_eq] at h1 h2
  omega

theorem alpha_of_lowerC_alpha {c : Char} (h : isAlphaC (lowerC c) = true) :
    isAlphaC c = true := by
  unfold lowerC at h
  by_cases hc : 65 ≤ c.toNat ∧ c.toNat ≤ 90
  · unfold isAlphaC
    rw [decide_eq_true_eq]
    omega
  · rw [if_neg hc] at h
    exact h

theorem digit_of_lowerC_digit {c : Char} (h : isDigitC (lowerC c) = true) :
    isDigitC c = true := by
  unfold lowerC at h
  by_cases hc : 65 ≤ c.toNat ∧ c.toNat ≤ 90
  · rw [if_pos hc] at h
    unfold isDigitC at h
    rw [decide_eq_true_eq, toNat_ofNat_valid (by omega) (by omega)] at h
    omega
  · rw [if_neg hc] at h
    exact h

theorem wsPlus_cons_ws {c : Char} {t : List Char} (hc : isWsC c = true) :
    wsPlus (c :: t) = some (t.dropWhile isWsC) := by
  show (if isWsC c = true then some (t.dropWhile isWsC) else none) =
    some (t.dropWhile isWsC)
  rw [if_pos hc]

theorem wsPlus_cons_not_ws {c : Char} {t : List Char} (hc : isWsC c = false) :
    wsPlus (c :: t) = none := by
  show (if isWsC c = true then some (t.dropWhile isWsC) else none) = none
  rw [if_neg (by simp [hc])]

theorem dropWhile_eq_self_of_head {R : List Char}
    (hR : ∀ c, R.head? = some c → isWsC c = false) : R.dropWhile isWsC = R := by
  cases R with
  | nil => rfl
  | cons c t => rw [List.dropWhile_cons, if_neg (by simp [hR c rfl])]

/-- Alignment of a regex element against the token structure of the
input: when the input is token `T`, a space, then `R` (whose head is not
whitespace), a whitespace-free consumed prefix that is followed by a
successful \s+ must be exactly `T`, and the \s+ consumes exactly the
separator, leaving `R`. -/
theorem sep_align {T R pre rest l1 : List Char}
    (hTw : ∀ c ∈ T, isWsC c = false)
    (hpw : ∀ c ∈ pre, isWsC c = false)
    (hRh : ∀ c, R.head? = some c → isWsC c = false)
    (heq : T ++ ' ' :: R = pre ++ rest)
    (hws : wsPlus rest = some l1) :
    pre = T ∧ l1 = R := by
  have hpre : pre <+: T ++ ' ' :: R := ⟨rest, heq.symm⟩
  have hTpre : T <+: T ++ ' ' :: R := ⟨' ' :: R, rfl⟩
  have hgood : pre = T → pre = T ∧ l1 = R := by
    intro hpt
    subst hpt
    have hrest : rest = ' ' :: R := (List.append_cancel_left heq).symm
    rw [hrest, wsPlus_cons_ws (by decide), dropWhile_eq_self_of_head hRh,
      Option.some_inj] at hws
    exact ⟨rfl, hws.symm⟩
  rcases List.prefix_or_prefix_of_prefix hpre hTpre with h | h
  · obtain ⟨e, he⟩ := h
    cases e with
    | nil =>
      exact hgood (by rw [← he]; simp)
    | cons x e' =>
      exfalso
      have hrest : rest = x :: (e' ++ ' ' :: R) := by
        rw [← he] at heq
        have heq2 : pre ++ (x :: (e' ++ ' ' :: R)) = pre ++ rest := by
          simpa [List.append_assoc] using heq
        exact (List.append_cancel_left heq2).symm
      have hx : x ∈ T := by rw [← he]; simp
      rw [hrest, wsPlus_cons_not_ws (hTw x hx)] at hws
      cases hws
  · obtain ⟨e, he⟩ := h
    cases e with
    | nil =>
      exact hgood (by rw [← he]; simp)
    | cons x e' =>
      exfalso
      have heq2 : T ++ ' ' :: R = T ++ (x :: (e' ++ rest)) := by
        rw [← he] at heq
        simpa [List.append_assoc] using heq
      have h3 := List.append_cancel_left heq2
      rw [List.cons.injEq] at h3
      have hx : x ∈ pre := by rw [← he]; simp
      have := hpw x hx
      rw [← h3.1] at this
      exact absurd this (by decide)

theorem tryAfterMonth_some {l : List Char} {d y : Nat} {r : List Char}
    (h : tryAfterMonth l = some (d, y, r)) :
    ∃ l1, wsPlus l = some l1 ∧ tryDays (dayCands l1) = some (d, y, r) := by
  unfold tryAfterMonth at h
  split at h
  · cases h
  · rename_i l1 heq
    exact ⟨l1, heq, h⟩

theorem tryDays_some {cs : List (Nat × List Char)} {d y : Nat} {r2 : List Char} :
    tryDays cs = some (d, y, r2) →
    ∃ q ∈ cs, q.1 = d ∧ ∃ r1 yc, wsPlus q.2 = some r1 ∧
      digitsTake 4 r1 = some (yc, r2) ∧ y = digitsVal yc := by
  induction cs with
  | nil => intro h; cases h
  | cons q cs ih =>
    intro h
    obtain ⟨dv, rr⟩ := q
    unfold tryDays at h
    split at h
    · rename_i yc rr2 heq
      rw [Option.some_inj] at h
      simp only [Prod.mk.injEq] at h
      obtain ⟨h1, h2, h3⟩ := h
      rw [Option.bind_eq_some] at heq
      obtain ⟨r1, hw, hd4⟩ := heq
      exact ⟨(dv, rr), List.mem_cons_self _ _, h1,
        r1, yc, hw, by rw [← h3]; exact hd4, h2.symm⟩
    · rename_i heq
      obtain ⟨q2, hq2, rest⟩ := ih h
      exact ⟨q2, List.mem_cons_of_mem _ hq2, rest⟩

theorem tryMonths_some {names : List (Nat × List Char)} {l : List Char}
    {m d y : Nat} {r : List Char} :
    tryMonths names l = some (m, d, y, r) →
    ∃ p ∈ names, lowerS (l.take p.2.length) = p.2 ∧
      tryAfterMonth (l.drop p.2.length) = some (d, y, r) := by
  induction names with
  | nil => intro h; cases h
  | cons q names ih =>
    intro h
    obtain ⟨mi, nm⟩ := q
    unfold tryMonths at h
    by_cases hc : (lowerS (l.take nm.length) == nm) = true
    · rw [if_pos hc] at h
      split at h
      · rename_i dd yy rr heq
        rw [Option.some_inj] at h
        simp only [Prod.mk.injEq] at h
        obtain ⟨h1, h2, h3, h4⟩ := h
        subst h2
        subst h3
        subst h4
        exact ⟨(mi, nm), List.mem_cons_self _ _, beq_iff_eq.mp hc, heq⟩
      · rename_i heq
        obtain ⟨p, hp, rest⟩ := ih h
        exact ⟨p, List.mem_cons_of_mem _ hp, rest⟩
    · rw [if_neg hc] at h
      obtain ⟨p, hp, rest⟩ := ih h
      exact ⟨p, List.mem_cons_of_mem _ hp, rest⟩

theorem dayCands_mem {l : List Char} {q : Nat × List Char} (h : q ∈ dayCands l) :
    ∃ cds, l = cds ++ q.2 ∧ 1 ≤ cds.length ∧ cds.length ≤ 2 ∧
      ∀ c ∈ cds, isDigitC c = true := by
  match l with
  | [] => exact absurd (h : q ∈ ([] : List (Nat × List Char))) (List.not_mem_nil q)
  | [a] =>
    have h2 : q ∈ (if decide (49 ≤ a.toNat ∧ a.toNat ≤ 57) then
        [((a.toNat - 48 : Nat), ([] : List Char))] else []) := h
    by_cases hc : (decide (49 ≤ a.toNat ∧ a.toNat ≤ 57)) = true
    · rw [if_pos hc, List.mem_singleton] at h2
      subst h2
      rw [decide_eq_true_eq] at hc
      refine ⟨[a], by simp, by simp, by simp, ?_⟩
      intro x hx
      rw [List.mem_singleton] at hx
      subst hx
      unfold isDigitC
      rw [decide_eq_true_eq]
      omega
    · rw [if_neg hc] at h2
      exact absurd h2 (List.not_mem_nil q)
  | a :: b :: r =>
    have h2 : q ∈
        ((if a == '3' && (b == '0' || b == '1') then
            [((30 + (b.toNat - 48) : Nat), r)] else []) ++
         (if (a == '1' || a == '2') && isDigitC b then
            [(((a.toNat - 48) * 10 + (b.toNat - 48) : Nat), r)] else []) ++
         (if a == '0' && decide (49 ≤ b.toNat ∧ b.toNat ≤ 57) then
            [((b.toNat - 48 : Nat), r)] else []) ++
         (if decide (49 ≤ a.toNat ∧ a.toNat ≤ 57) then
            [((a.toNat - 48 : Nat), b :: r)] else [])) := h
    simp only [List.mem_append] at h2
    have two_digits : ∀ v, q = (v, r) → isDigitC a = true → isDigitC b = true →
        ∃ cds, a :: b :: r = cds ++ q.2 ∧ 1 ≤ cds.length ∧ cds.length ≤ 2 ∧
          ∀ c ∈ cds, isDigitC c = true := by
      intro v hq ha hb
      refine ⟨[a, b], by rw [hq]; rfl, by simp, by simp, ?_⟩
      intro x hx
      rcases List.mem_cons.mp hx with rfl | hx2
      · exact ha
      · rw [List.mem_singleton] at hx2
        subst hx2
        exact hb
    rcases h2 with ((h2 | h2) | h2) | h2
    · by_cases hc : (a == '3' && (b == '0' || b == '1')) = true
      · rw [if_pos hc, List.mem_singleton] at h2
        rw [Bool.and_eq_true] at hc
        refine two_digits _ h2 (by rw [beq_iff_eq.mp hc.1]; decide) ?_
        have hc2 : b = '0' ∨ b = '1' := by simpa using hc.2
        rcases hc2 with rfl | rfl <;> decide
      · rw [if_neg hc] at h2
        exact absurd h2 (List.not_mem_nil q)
    · by_cases hc : ((a == '1' || a == '2') && isDigitC b) = true
      · rw [if_pos hc, List.mem_singleton] at h2
        rw [Bool.and_eq_true] at hc
        refine two_digits _ h2 ?_ hc.2
        have hc2 : a = '1' ∨ a = '2' := by simpa using hc.1
        rcases hc2 with rfl | rfl <;> decide
      · rw [if_neg hc] at h2
        exact absurd h2 (List.not_mem_nil q)
    · by_cases hc : (a == '0' && decide (49 ≤ b.toNat ∧ b.toNat ≤ 57)) = true
      · rw [if_pos hc, List.mem_singleton] at h2
        rw [Bool.and_eq_true, decide_eq_true_eq] at hc
        refine two_digits _ h2 (by rw [beq_iff_eq.mp hc.1]; decide) ?_
        unfold isDigitC
        rw [decide_eq_true_eq]
        omega
      · rw [if_neg hc] at h2
        exact absurd h2 (List.not_mem_nil q)
    · by_cases hc : (decide (49 ≤ a.toNat ∧ a.toNat ≤ 57)) = true
      · rw [if_pos hc, List.mem_singleton] at h2
        subst h2
        rw [decide_eq_true_eq] at hc
        refine ⟨[a], by simp, by simp, by simp, ?_⟩
        intro x hx
        rw [List.mem_singleton] at hx
        subst hx
        unfold isDigitC
        rw [decide_eq_true_eq]
        omega
      · rw [if_neg hc] at h2
        exact absurd h2 (List.not_mem_nil q)

theorem normGo_covers : ∀ (ts seen : List (List Char)) (x : List Char),
    x ∈ ts →
    (∃ s0 ∈ seen, lowerS s0 = lowerS x) ∨
      ∃ x2 ∈ normGo seen ts, lowerS x2 = lowerS x := by
  intro ts
  induction ts with
  | nil => intro seen x hx; exact absurd hx (List.not_mem_nil x)
  | cons t ts ih =>
    intro seen x hx
    by_cases hs : List.elem (lowerS t) (seen.map lowerS) = true
    · rw [normGo, if_pos hs]
      rcases List.mem_cons.mp hx with rfl | hx2
      · left
        have hmem := List.elem_iff.mp hs
        rw [List.mem_map] at hmem
        obtain ⟨s0, hs0, he⟩ := hmem
        exact ⟨s0, hs0, he⟩
      · exact ih seen x hx2
    · rw [normGo, if_neg hs]
      rcases List.mem_cons.mp hx with rfl | hx2
      · right
        exact ⟨x, List.mem_cons_self _ _, rfl⟩
      · rcases ih (seen ++ [t]) x hx2 with ⟨s0, hs0, he⟩ | ⟨x2, hx2m, he⟩
        · rcases List.mem_append.mp hs0 with h1 | h1
          · exact Or.inl ⟨s0, h1, he⟩
          · rw [List.mem_singleton] at h1
            subst h1
            right
            exact ⟨s0, List.mem_cons_self _ _, he⟩
        · right
          exact ⟨x2, List.mem_cons_of_mem _ hx2m, he⟩

theorem joinChars_cons_head? (T : List Char) (Ds : List (List Char)) (z : List Char)
    (hT : T ≠ []) : (joinChars (T :: Ds) ++ z).head? = T.head? := by
  obtain ⟨a, T', rfl⟩ : ∃ a T', T = a :: T' := by
    cases T with
    | nil => exact absurd rfl hT
    | cons a T' => exact ⟨a, T', rfl⟩
  cases Ds with
  | nil => rfl
  | cons T2 Ds' => rfl

/-- Core of C9: when the token list D contains a four-digit all-digit
token, the strptime pattern month \s+ day \s+ \d\d\d\d can never consume
the whole input joinChars D ++ " 2025": the month field would have to be
the whole first token (all letters), the day field the whole second
token (at most two digits), and the four digits the whole rest — which
forces D to be exactly [letters-token, short-digit-token], leaving no
place for the four-digit token. -/
theorem strptime_year_token_fails (names : List (Nat × List Char))
    (hn : ∀ p ∈ names, p.2 ≠ [] ∧ ∀ c ∈ p.2, isAlphaC c = true)
    (D : List (List Char))
    (hD : ∀ T ∈ D, T ≠ [] ∧ ∀ c ∈ T, isWsC c = false)
    (y2 : List Char) (hy : y2 ∈ D) (hy4 : y2.length = 4)
    (hyd : ∀ c ∈ y2, isDigitC c = true) :
    strptimeFmt names (joinChars D ++ ' ' :: chars "2025") = none := by
  cases hm : tryMonths names (joinChars D ++ ' ' :: chars "2025") with
  | none =>
    unfold strptimeFmt
    rw [hm]
  | some t =>
    obtain ⟨m, d, y, rest⟩ := t
    have hrest : rest ≠ [] := by
      intro hrnil
      subst hrnil
      obtain ⟨p, hp, hcm, hafter⟩ := tryMonths_some hm
      obtain ⟨mi, nm⟩ := p
      obtain ⟨hnm_ne, hnm_alpha⟩ := hn (mi, nm) hp
      dsimp only at hcm hafter hnm_ne hnm_alpha
      obtain ⟨l1, hws, hdays⟩ := tryAfterMonth_some hafter
      obtain ⟨T1, D', rfl⟩ : ∃ T1 D', D = T1 :: D' := by
        cases D with
        | nil => exact absurd hy (List.not_mem_nil y2)
        | cons T1 D' => exact ⟨T1, D', rfl⟩
      obtain ⟨hT1ne, hT1w⟩ := hD T1 (List.mem_cons_self _ _)
      obtain ⟨Rm, hIdec, hRmHead, hRmStruct⟩ :
          ∃ Rm, joinChars (T1 :: D') ++ ' ' :: chars "2025" = T1 ++ ' ' :: Rm ∧
            (∀ c, Rm.head? = some c → isWsC c = false) ∧
            ((D' = [] ∧ Rm = chars "2025") ∨
             ∃ T2 D'', D' = T2 :: D'' ∧
               Rm = joinChars (T2 :: D'') ++ ' ' :: chars "2025") := by
        cases D' with
        | nil =>
          refine ⟨chars "2025", rfl, ?_, Or.inl ⟨rfl, rfl⟩⟩
          intro c hc
          cases hc
          decide
        | cons T2 D'' =>
          refine ⟨joinChars (T2 :: D'') ++ ' ' :: chars "2025", ?_, ?_,
            Or.inr ⟨T2, D'', rfl, rfl⟩⟩
          · show (T1 ++ ' ' :: joinChars (T2 :: D'')) ++ ' ' :: chars "2025" = _
            simp [List.append_assoc]
          · intro c hc
            rw [joinChars_cons_head? T2 D'' _ (hD T2 (by simp)).1] at hc
            exact (hD T2 (by simp)).2 c (List.mem_of_mem_head? hc)
      have hcm_w : ∀ c ∈ (joinChars (T1 :: D') ++ ' ' :: chars "2025").take nm.length,
          isWsC c = false := by
        intro c hc
        have hmm : lowerC c ∈ nm := by
          rw [← hcm]
          exact List.mem_map_of_mem lowerC hc
        exact alpha_not_ws (alpha_of_lowerC_alpha (hnm_alpha _ hmm))
      have htkdr : T1 ++ ' ' :: Rm =
          (joinChars (T1 :: D') ++ ' ' :: chars "2025").take nm.length ++
          (joinChars (T1 :: D') ++ ' ' :: chars "2025").drop nm.length := by
        rw [List.take_append_drop]
        exact hIdec.symm
      obtain ⟨hpreT1, hl1Rm⟩ := sep_align hT1w hcm_w hRmHead htkdr hws
      have hT1alpha : ∀ c ∈ T1, isAlphaC c = true := by
        intro c hc
        rw [← hpreT1] at hc
        have hmm : lowerC c ∈ nm := by
          rw [← hcm]
          exact List.mem_map_of_mem lowerC hc
        exact alpha_of_lowerC_alpha (hnm_alpha _ hmm)
      subst hl1Rm
      obtain ⟨q, hq, hqd, r1, yc, hqws, hd4, hyval⟩ := tryDays_some hdays
      obtain ⟨cds, hRm_eq, hcds1, hcds2, hcds_dig⟩ := dayCands_mem hq
      rcases hRmStruct with ⟨hD'nil, hRmY⟩ | ⟨T2, D'', hD'cons, hRmJ⟩
      · rw [hRmY] at hRm_eq
        cases hq2 : q.2 with
        | nil =>
          rw [hq2] at hqws
          cases hqws
        | cons w tail =>
          have hw_mem : w ∈ chars "2025" := by
            rw [hRm_eq, hq2]
            exact List.mem_append.mpr (Or.inr (List.mem_cons_self _ _))
          have hw_dig : isDigitC w = true := by
            have hall : ∀ c ∈ chars "2025", isDigitC c = true := by decide
            exact hall w hw_mem
          rw [hq2, wsPlus_cons_not_ws (digit_not_ws hw_dig)] at hqws
          cases hqws
      · subst hD'cons
        obtain ⟨R2, hRm2, hR2Head, hR2Struct⟩ :
            ∃ R2, l1 = T2 ++ ' ' :: R2 ∧ (∀ c, R2.head? = some c → isWsC c = false) ∧
              ((D'' = [] ∧ R2 = chars "2025") ∨
               ∃ T3 D3, D'' = T3 :: D3 ∧
                 R2 = joinChars (T3 :: D3) ++ ' ' :: chars "2025") := by
          cases D'' with
          | nil =>
            refine ⟨chars "2025", by rw [hRmJ]; rfl, ?_, Or.inl ⟨rfl, rfl⟩⟩
            intro c hc
            cases hc
            decide
          | cons T3 D3 =>
            refine ⟨joinChars (T3 :: D3) ++ ' ' :: chars "2025", ?_, ?_,
              Or.inr ⟨T3, D3, rfl, rfl⟩⟩
            · rw [hRmJ]
              show (T2 ++ ' ' :: joinChars (T3 :: D3)) ++ ' ' :: chars "2025" = _
              simp [List.append_assoc]
            · intro c hc
              rw [joinChars_cons_head? T3 D3 _ (hD T3 (by simp)).1] at hc
              exact (hD T3 (by simp)).2 c (List.mem_of_mem_head? hc)
        obtain ⟨hT2ne, hT2w⟩ := hD T2 (by simp)
        have heq2 : T2 ++ ' ' :: R2 = cds ++ q.2 := by
          rw [← hRm2]
          exact hRm_eq
        obtain ⟨hcdsT2, hr1R2⟩ :=
          sep_align hT2w (fun c hc => digit_not_ws (hcds_dig c hc)) hR2Head heq2 hqws
        subst hr1R2
        obtain ⟨hyc, hdrop, hyclen, hycdig⟩ := digitsTake_some hd4
        have hR2yc : r1 = yc := by
          have hsplit2 : r1 = r1.take 4 ++ r1.drop 4 := (List.take_append_drop 4 r1).symm
          rw [← hyc, ← hdrop, List.append_nil] at hsplit2
          exact hsplit2
        have hR2dig : ∀ c ∈ r1, isDigitC c = true := by
          rw [hR2yc]
          exact List.all_eq_true.mp hycdig
        rcases hR2Struct with ⟨hD''nil, hR2Y⟩ | ⟨T3, D3, hD''cons, hR2J⟩
        · subst hD''nil
          rcases List.mem_cons.mp hy with rfl | hy2
          · obtain ⟨c0, y2', rfl⟩ : ∃ c0 y2', y2 = c0 :: y2' := by
              cases y2 with
              | nil => simp at hy4
              | cons c0 y2' => exact ⟨c0, y2', rfl⟩
            exact digit_alpha_false (hyd c0 (by simp)) (hT1alpha c0 (by simp))
          · rcases List.mem_cons.mp hy2 with rfl | hy3
            · rw [hcdsT2] at hcds2
              omega
            · exact absurd hy3 (List.not_mem_nil y2)
        · subst hD''cons
          have hsp : ' ' ∈ r1 := by
            rw [hR2J]
            exact List.mem_append.mpr (Or.inr (List.mem_cons_self _ _))
          exact absurd (hR2dig ' ' hsp) (by decide)
    unfold strptimeFmt
    rw [hm]
    show (if rest.isEmpty && validDate y m d then some (SDate.mk y m d) else none) = none
    rw [if_neg]
    intro hand
    rw [Bool.and_eq_true] at hand
    exact hrest (List.isEmpty_iff.mp hand.1)

/-- C9: for every date string whose last whitespace-delimited token is
an explicit four-digit numeric year (such as "Jan 21 2025"), the Date
Parser returns the unparseable result none: the fixed reference year
2025 is appended unconditionally to the normalised string before the two
formats are tried, so no format can consume the whole input.  Such
records therefore always carry the no-date sort key and sort last. -/
theorem C9_explicit_year_unparseable (s : String) (ts : List (List Char)) (yt : List Char)
    (hsplit : splitRuns s.data = ts ++ [yt]) (hy4 : yt.length = 4)
    (hyd : ∀ c ∈ yt, isDigitC c = true) :
    parse_surgery_date s = none := by
  have hstrip : splitRuns (stripS s.data) = ts ++ [yt] := by
    rw [splitRuns_stripS, hsplit]
  have hne : (stripS s.data).isEmpty = false := by
    cases hempty : (stripS s.data).isEmpty with
    | false => rfl
    | true =>
      exfalso
      have h0 : stripS s.data = [] := List.isEmpty_iff.mp hempty
      rw [h0] at hstrip
      have h1 : ([] : List (List Char)) = ts ++ [yt] := hstrip
      exact absurd h1.symm (by simp)
  have hD_def : normChars (stripS s.data) = joinChars (normGo [] (ts ++ [yt])) := by
    unfold normChars
    rw [hstrip]
  have hDfacts : ∀ T ∈ normGo [] (ts ++ [yt]), T ≠ [] ∧ ∀ c ∈ T, isWsC c = false := by
    intro T hT
    have hmem : T ∈ ts ++ [yt] := normGo_subset _ [] T hT
    rw [← hstrip] at hmem
    exact splitRuns_tokens _ T hmem
  obtain ⟨y2, hy2mem, hy2low⟩ :
      ∃ y2 ∈ normGo [] (ts ++ [yt]), lowerS y2 = lowerS yt := by
    rcases normGo_covers (ts ++ [yt]) [] yt (by simp) with ⟨s0, hs0, _⟩ | h
    · exact absurd hs0 (List.not_mem_nil s0)
    · exact h
  rw [lowerS_digits hyd] at hy2low
  have hy2len : y2.length = 4 := by
    have h1 : (lowerS y2).length = yt.length := by rw [hy2low]
    rw [lowerS, List.length_map] at h1
    rw [h1, hy4]
  have hy2dig : ∀ c ∈ y2, isDigitC c = true := by
    intro c hc
    apply digit_of_lowerC_digit
    apply hyd
    rw [← hy2low]
    exact List.mem_map_of_mem lowerC hc
  have habbr : ∀ p ∈ abbrNames, p.2 ≠ [] ∧ ∀ c ∈ p.2, isAlphaC c = true := by decide
  have hfull : ∀ p ∈ fullNames, p.2 ≠ [] ∧ ∀ c ∈ p.2, isAlphaC c = true := by decide
  unfold parse_surgery_date
  rw [if_neg (by simp [hne])]
  rw [hD_def]
  rw [strptime_year_token_fails abbrNames habbr _ hDfacts y2 hy2mem hy2len hy2dig]
  rw [strptime_year_token_fails fullNames hfull _ hDfacts y2 hy2mem hy2len hy2dig]

/-- C9 witness at "Jan 21 2025": the token list ends with the four-digit
token "2025" and the Parser returns none. -/
theorem C9_witness :
    splitRuns (chars "Jan 21 2025") = [chars "Jan", chars "21"] ++ [chars "2025"] ∧
    parse_surgery_date "Jan 21 2025" = none :=
  ⟨by decide,
   C9_explicit_year_unparseable "Jan 21 2025" [chars "Jan", chars "21"] (chars "2025")
     (by decide) (by decide) (by decide)⟩
